import Mathlib

/-!
Verification of the grid-maintenance strategy engine of the Strategy
repository (files `strategies/aster_normal_grid_strategy.py` and
`strategies/aster_log_grid_strategy.py`).

Python `decimal.Decimal` values are modelled as exact rationals (`ℚ`);
the price tick (`PRICE_PRECISION = TICK_SIZE = 0.0001`) and the quantity
step (`QUANTITY_PRECISION = 1`) are fixed constants of both strategy
files.  `Decimal.quantize(_, ROUND_DOWN)` rounds toward zero to a
multiple of the step; `Decimal.quantize(_)` with the default context
rounds half-to-even.  Both are embedded below as executable functions
on `ℚ`.
-/

/-- Price tick of the instrument: `PRICE_PRECISION = TICK_SIZE = Decimal("0.0001")`. -/
def tick : ℚ := 1 / 10000

/-- Minimum notional value constant: `MIN_NOTIONAL_VALUE = Decimal("5")`. -/
def MIN_NOTIONAL_VALUE : ℚ := 5

/-- Truncation of a rational toward zero, as an integer: this is what
`ROUND_DOWN` does to the quotient value/step in Python `decimal`. -/
def truncQ (x : ℚ) : ℤ := if x < 0 then ⌈x⌉ else ⌊x⌋

/-- Round-half-even of a rational to an integer, the default rounding of
Python `decimal` contexts (`ROUND_HALF_EVEN`). -/
def roundHE (x : ℚ) : ℤ :=
  let f : ℤ := ⌊x⌋
  let r : ℚ := x - f
  if r < 1 / 2 then f
  else if 1 / 2 < r then f + 1
  else if f % 2 = 0 then f else f + 1

/-- Quantization of a price to the tick with `ROUND_DOWN`
(`price.quantize(PRICE_PRECISION, rounding=decimal.ROUND_DOWN)`). -/
def qD (x : ℚ) : ℚ := (truncQ (x / tick) : ℚ) * tick

/-- Quantization of a price to the tick with the default rounding
(`price.quantize(PRICE_PRECISION)`, round half-to-even). -/
def qHE (x : ℚ) : ℚ := (roundHE (x / tick) : ℚ) * tick

/-- Quantization of a quantity to the quantity step `1` with `ROUND_DOWN`
(`qty.quantize(QUANTITY_PRECISION, decimal.ROUND_DOWN)`). -/
def qDqty (x : ℚ) : ℚ := (truncQ x : ℚ)

theorem tick_pos : (0 : ℚ) < tick := by norm_num [tick]

theorem truncQ_intCast (k : ℤ) : truncQ (k : ℚ) = k := by
  unfold truncQ
  split <;> simp

theorem roundHE_intCast (k : ℤ) : roundHE (k : ℚ) = k := by
  unfold roundHE
  simp

theorem truncQ_mono {a b : ℚ} (h : a ≤ b) : truncQ a ≤ truncQ b := by
  unfold truncQ
  by_cases ha : a < 0 <;> by_cases hb : b < 0
  · simpa [ha, hb] using Int.ceil_le_ceil h
  · simp only [ha, hb, if_true, if_false]
    calc ⌈a⌉ ≤ 0 := Int.ceil_le.mpr (by exact_mod_cast ha.le)
    _ ≤ ⌊b⌋ := Int.floor_nonneg.mpr (not_lt.mp hb)
  · exact absurd (lt_of_le_of_lt h hb) ha
  · simpa [ha, hb] using Int.floor_le_floor h

theorem qD_mono {a b : ℚ} (h : a ≤ b) : qD a ≤ qD b := by
  unfold qD
  have := truncQ_mono (div_le_div_of_nonneg_right h tick_pos.le : a / tick ≤ b / tick)
  exact mul_le_mul_of_nonneg_right (by exact_mod_cast this) tick_pos.le

theorem qD_intMul (k : ℤ) : qD ((k : ℚ) * tick) = (k : ℚ) * tick := by
  unfold qD
  rw [mul_div_assoc, div_self (ne_of_gt tick_pos), mul_one, truncQ_intCast]

theorem qHE_intMul (k : ℤ) : qHE ((k : ℚ) * tick) = (k : ℚ) * tick := by
  unfold qHE
  rw [mul_div_assoc, div_self (ne_of_gt tick_pos), mul_one, roundHE_intCast]

theorem qHE_eq_intMul (x : ℚ) : ∃ k : ℤ, qHE x = (k : ℚ) * tick :=
  ⟨roundHE (x / tick), rfl⟩

theorem qD_qHE (x : ℚ) : qD (qHE x) = qHE x := by
  obtain ⟨k, hk⟩ := qHE_eq_intMul x
  rw [hk, qD_intMul]

theorem qHE_qHE (x : ℚ) : qHE (qHE x) = qHE x := by
  obtain ⟨k, hk⟩ := qHE_eq_intMul x
  rw [hk, qHE_intMul]

/-!
Descending duplicate-free sorting.  Both strategy files compute
`sorted(list(set(levels)), reverse=True)`: the strictly descending
enumeration of the distinct elements of a list.  `sortDescDedup` builds
that enumeration by insertion.
-/

/-- Insertion of an element into a strictly descending list, dropping it
when already present. -/
def insertDesc (x : ℚ) : List ℚ → List ℚ
  | [] => [x]
  | y :: ys =>
    if y < x then x :: y :: ys
    else if x = y then y :: ys
    else y :: insertDesc x ys

/-- Embedding of Python `sorted(list(set(l)), reverse=True)`: the strictly
descending enumeration of the distinct elements of `l`. -/
def sortDescDedup (l : List ℚ) : List ℚ := l.foldr insertDesc []

theorem mem_insertDesc {x y : ℚ} {l : List ℚ} :
    y ∈ insertDesc x l ↔ y = x ∨ y ∈ l := by
  induction l with
  | nil => simp [insertDesc]
  | cons a as ih =>
    unfold insertDesc
    by_cases h1 : a < x
    · rw [if_pos h1]
      simp
    · by_cases h2 : x = a
      · rw [if_neg h1, if_pos h2]
        subst h2
        simp only [List.mem_cons]
        tauto
      · rw [if_neg h1, if_neg h2]
        simp only [List.mem_cons, ih]
        tauto

theorem pairwise_insertDesc {x : ℚ} {l : List ℚ}
    (h : l.Pairwise (· > ·)) : (insertDesc x l).Pairwise (· > ·) := by
  induction l with
  | nil => simp [insertDesc]
  | cons a as ih =>
    rw [List.pairwise_cons] at h
    unfold insertDesc
    by_cases h1 : a < x
    · rw [if_pos h1, List.pairwise_cons]
      constructor
      · intro b hb
        rcases List.mem_cons.mp hb with hb | hb
        · simpa [hb] using h1
        · exact lt_trans (h.1 b hb) h1
      · exact List.pairwise_cons.mpr h
    · by_cases h2 : x = a
      · rw [if_neg h1, if_pos h2]
        exact List.pairwise_cons.mpr h
      · rw [if_neg h1, if_neg h2, List.pairwise_cons]
        refine ⟨fun b hb => ?_, ih h.2⟩
        rcases mem_insertDesc.mp hb with hb | hb
        · subst hb
          exact lt_of_le_of_ne (not_lt.mp h1) h2
        · exact h.1 b hb

theorem sortDescDedup_pairwise (l : List ℚ) :
    (sortDescDedup l).Pairwise (· > ·) := by
  induction l with
  | nil => simp [sortDescDedup]
  | cons a as ih => exact pairwise_insertDesc ih

theorem mem_sortDescDedup {y : ℚ} {l : List ℚ} :
    y ∈ sortDescDedup l ↔ y ∈ l := by
  induction l with
  | nil => simp [sortDescDedup]
  | cons a as ih =>
    show y ∈ insertDesc a (sortDescDedup as) ↔ _
    rw [mem_insertDesc, ih]
    simp

theorem insertDesc_ne_nil (x : ℚ) (l : List ℚ) : insertDesc x l ≠ [] := by
  cases l with
  | nil => simp [insertDesc]
  | cons a as =>
    unfold insertDesc
    split
    · simp
    · split <;> simp

theorem sortDescDedup_ne_nil (a : ℚ) (l : List ℚ) :
    sortDescDedup (a :: l) ≠ [] := insertDesc_ne_nil a (sortDescDedup l)

/-!
Grid level calculators.  `NormalGrid.calculate_grid_levels` embeds the
arithmetic calculator of `aster_normal_grid_strategy.py`;
`LogGrid.calculate_grid_levels` embeds the geometric calculator of
`aster_log_grid_strategy.py`.  The geometric ratio is computed in Python
by `(U/L) ** (1/N)` through the `decimal` power primitive; that library
primitive is modelled as an explicit `ratio` argument, and the `ratio <= 1` guard
of the code appears as written.
-/

namespace NormalGrid

/-- Pre-quantization arithmetic levels
`[lower_price + i * grid_step for i in range(num_grids + 1)]`
with `grid_step = (upper_price - lower_price) / num_grids`. -/
def gridRawLevels (upper_price lower_price : ℚ) (num_grids : ℕ) : List ℚ :=
  (List.range (num_grids + 1)).map
    (fun i : ℕ => lower_price + (i : ℚ) * ((upper_price - lower_price) / (num_grids : ℚ)))

/-- Embedding of `calculate_grid_levels` of `aster_normal_grid_strategy.py`:
guard on invalid parameters, arithmetic levels, round-down quantization to
the tick, deduplication and descending sort. -/
def calculate_grid_levels (upper_price lower_price : ℚ) (num_grids : ℕ) : List ℚ :=
  if upper_price ≤ lower_price ∨ num_grids < 1 then []
  else if (upper_price - lower_price) / (num_grids : ℚ) ≤ 0 then []
  else sortDescDedup ((gridRawLevels upper_price lower_price num_grids).map qD)

/-- Embedding of the startup check in `__main__`:
`grid_levels = calculate_grid_levels(...)`; `if not grid_levels: sys.exit(1)`.
`none` is the nonzero process exit, `some` enters the maintenance loop. -/
def startupLevels (upper_price lower_price : ℚ) (num_grids : ℕ) : Option (List ℚ) :=
  match calculate_grid_levels upper_price lower_price num_grids with
  | [] => none
  | ls => some ls

end NormalGrid

namespace LogGrid

/-- Pre-quantization geometric levels, built exactly as the Python loop
`for i in range(num_grids + 1): lvls.append(cur); if i < num_grids: cur *= ratio`:
each level is the previous one multiplied by the ratio. -/
def logIter (cur ratio : ℚ) : ℕ → List ℚ
  | 0 => [cur]
  | n + 1 => cur :: logIter (cur * ratio) ratio n

/-- Inner loop of the geometric deduplication: walking the descending list,
an element is kept when it differs from its list predecessor by more than
half a tick and is at least the quantized lower bound minus half a tick. -/
def logDedupGo (tol lb prev : ℚ) : List ℚ → List ℚ
  | [] => []
  | x :: xs =>
    if tol < |x - prev| ∧ lb - tol ≤ x then x :: logDedupGo tol lb x xs
    else logDedupGo tol lb x xs

/-- Embedding of the `unique` construction of the geometric calculator:
the head of the descending list is always kept, later elements pass
through `logDedupGo`. -/
def logDedup (tol lb : ℚ) : List ℚ → List ℚ
  | [] => []
  | h :: t => h :: logDedupGo tol lb h t

/-- Embedding of `calculate_grid_levels` of `aster_log_grid_strategy.py`.
The `ratio` argument stands for the Python value
`(upper_price / lower_price) ** (Decimal(1) / Decimal(num_grids))`,
whose `decimal` power primitive is modelled abstractly. -/
def calculate_grid_levels (ratio upper_price lower_price : ℚ) (num_grids : ℕ) : List ℚ :=
  if upper_price ≤ lower_price ∨ num_grids < 1 then []
  else if lower_price ≤ 0 then []
  else if ratio ≤ 1 then []
  else
    let fmt := (logIter lower_price ratio num_grids).map qD
    let temp := sortDescDedup fmt
    sortDescDedup (logDedup (tick / 2) (qD lower_price) temp)

/-- Startup check of the log-grid `__main__`: exits when the level list is
empty, otherwise enters the maintenance loop. -/
def startupLevels (ratio upper_price lower_price : ℚ) (num_grids : ℕ) : Option (List ℚ) :=
  match calculate_grid_levels ratio upper_price lower_price num_grids with
  | [] => none
  | ls => some ls

end LogGrid

/-!
Position sizing (`__main__` of both strategy files): the per-level
quantity is `((USDT_AMOUNT / num_grids) / avg_price)` quantized to the
quantity step with round-down, rejected fatally when nonpositive or when
its notional at the lower bound is below the exchange minimum.
-/

/-- Per-level order quantity before the sanity checks:
`((USDT_AMOUNT / Decimal(num_g)) / avg_price).quantize(QUANTITY_PRECISION, ROUND_DOWN)`
with `avg_price = (lower_p + upper_p) / 2`. -/
def computeOrderQty (usdt_amount upper_p lower_p : ℚ) (num_g : ℕ) : ℚ :=
  qDqty ((usdt_amount / (num_g : ℚ)) / ((lower_p + upper_p) / 2))

/-- Embedding of the quantity-sizing block of `__main__`: `none` is
`sys.exit(1)` (startup failure before any order is placed), `some q`
is the `ORDER_QTY_PER_GRID` the maintenance loop will use. -/
def sizeOrders (usdt_amount upper_p lower_p : ℚ) (num_g : ℕ) : Option ℚ :=
  if (lower_p + upper_p) / 2 ≤ 0 ∨ num_g ≤ 0 then none
  else if computeOrderQty usdt_amount upper_p lower_p num_g ≤ 0 then none
  else if computeOrderQty usdt_amount upper_p lower_p num_g * lower_p
      < MIN_NOTIONAL_VALUE then none
  else some (computeOrderQty usdt_amount upper_p lower_p num_g)

theorem mem_gridRawLevels {U L x : ℚ} {N : ℕ} :
    x ∈ NormalGrid.gridRawLevels U L N ↔
      ∃ i ≤ N, x = L + (i : ℚ) * ((U - L) / (N : ℚ)) := by
  constructor
  · intro h
    obtain ⟨i, hi, hx⟩ := List.mem_map.mp h
    exact ⟨i, Nat.lt_succ_iff.mp (List.mem_range.mp hi), hx.symm⟩
  · rintro ⟨i, hi, hx⟩
    exact List.mem_map.mpr ⟨i, List.mem_range.mpr (Nat.lt_succ_iff.mpr hi), hx.symm⟩

theorem gridRawLevels_length (U L : ℚ) (N : ℕ) :
    (NormalGrid.gridRawLevels U L N).length = N + 1 := by
  unfold NormalGrid.gridRawLevels
  rw [List.length_map, List.length_range]

theorem calculate_grid_levels_of_valid {U L : ℚ} {N : ℕ}
    (hU : L < U) (hN : 1 ≤ N) :
    NormalGrid.calculate_grid_levels U L N =
      sortDescDedup ((NormalGrid.gridRawLevels U L N).map qD) := by
  have hNQ : (0 : ℚ) < (N : ℚ) := by exact_mod_cast hN
  have hstep : (0 : ℚ) < (U - L) / (N : ℚ) := div_pos (by linarith) hNQ
  have h1 : ¬(U ≤ L ∨ N < 1) := by
    push_neg
    exact ⟨hU, hN⟩
  unfold NormalGrid.calculate_grid_levels
  rw [if_neg h1, if_neg (not_le.mpr hstep)]

theorem logIter_length (c r : ℚ) (n : ℕ) : (LogGrid.logIter c r n).length = n + 1 := by
  induction n generalizing c with
  | zero => rfl
  | succ n ih => simp [LogGrid.logIter, ih]

theorem logIter_getD (c r : ℚ) (n : ℕ) :
    ∀ i ≤ n, (LogGrid.logIter c r n).getD i 0 = c * r ^ i := by
  induction n generalizing c with
  | zero =>
    intro i hi
    interval_cases i
    simp [LogGrid.logIter]
  | succ n ih =>
    intro i hi
    cases i with
    | zero => simp [LogGrid.logIter]
    | succ i =>
      have := ih (c * r) i (Nat.succ_le_succ_iff.mp hi)
      simp only [LogGrid.logIter, List.getD_cons_succ, this]
      ring

theorem mem_logIter {c r x : ℚ} {n : ℕ} :
    x ∈ LogGrid.logIter c r n ↔ ∃ i ≤ n, x = c * r ^ i := by
  induction n generalizing c with
  | zero =>
    simp only [LogGrid.logIter, List.mem_singleton]
    constructor
    · rintro rfl
      exact ⟨0, le_refl 0, by ring⟩
    · rintro ⟨i, hi, rfl⟩
      interval_cases i
      ring
  | succ n ih =>
    simp only [LogGrid.logIter, List.mem_cons, ih]
    constructor
    · rintro (rfl | ⟨i, hi, rfl⟩)
      · exact ⟨0, Nat.zero_le _, by ring⟩
      · exact ⟨i + 1, Nat.succ_le_succ hi, by ring⟩
    · rintro ⟨i, hi, rfl⟩
      cases i with
      | zero => exact Or.inl (by ring)
      | succ i =>
        exact Or.inr ⟨i, Nat.succ_le_succ_iff.mp hi, by ring⟩

theorem mem_logDedupGo {tol lb x : ℚ} :
    ∀ {prev : ℚ} {l : List ℚ}, x ∈ LogGrid.logDedupGo tol lb prev l → x ∈ l := by
  intro prev l
  induction l generalizing prev with
  | nil => simp [LogGrid.logDedupGo]
  | cons a as ih =>
    unfold LogGrid.logDedupGo
    split
    · intro h
      rcases List.mem_cons.mp h with h | h
      · exact List.mem_cons.mpr (Or.inl h)
      · exact List.mem_cons.mpr (Or.inr (ih h))
    · intro h
      exact List.mem_cons.mpr (Or.inr (ih h))

theorem mem_logDedup {tol lb x : ℚ} {l : List ℚ}
    (h : x ∈ LogGrid.logDedup tol lb l) : x ∈ l := by
  cases l with
  | nil => simp [LogGrid.logDedup] at h
  | cons a as =>
    rcases List.mem_cons.mp h with h | h
    · exact List.mem_cons.mpr (Or.inl h)
    · exact List.mem_cons.mpr (Or.inr (mem_logDedupGo h))

theorem log_calculate_grid_levels_of_valid {ratio U L : ℚ} {N : ℕ}
    (hL : 0 < L) (hU : L < U) (hN : 1 ≤ N) (hr : 1 < ratio) :
    LogGrid.calculate_grid_levels ratio U L N =
      sortDescDedup (LogGrid.logDedup (tick / 2) (qD L)
        (sortDescDedup ((LogGrid.logIter L ratio N).map qD))) := by
  have h1 : ¬(U ≤ L ∨ N < 1) := by
    push_neg
    exact ⟨hU, hN⟩
  unfold LogGrid.calculate_grid_levels
  rw [if_neg h1, if_neg (not_le.mpr hL), if_neg (not_le.mpr hr)]

/-- C2: for U > L > 0 and N ≥ 1 the arithmetic calculator builds exactly
N+1 pre-deduplication levels L + i·(U−L)/N (i = 0..N) with the step
computed exactly (Decimal arithmetic modelled as exact rationals), and the
returned list is the round-down-quantized, deduplicated levels sorted
strictly descending; on U = 0.7, L = 0.6, N = 10 it returns the eleven
levels 0.70, 0.69, ..., 0.60. -/
theorem C2_arith_levels (U L : ℚ) (N : ℕ) (hL : 0 < L) (hU : L < U) (hN : 1 ≤ N) :
    (NormalGrid.gridRawLevels U L N).length = N + 1 ∧
    (∀ x, x ∈ NormalGrid.gridRawLevels U L N ↔
      ∃ i ≤ N, x = L + (i : ℚ) * ((U - L) / (N : ℚ))) ∧
    NormalGrid.calculate_grid_levels U L N =
      sortDescDedup ((NormalGrid.gridRawLevels U L N).map qD) ∧
    (NormalGrid.calculate_grid_levels U L N).Pairwise (· > ·) ∧
    NormalGrid.calculate_grid_levels (7/10) (3/5) 10 =
      [7/10, 69/100, 17/25, 67/100, 33/50, 13/20, 16/25, 63/100, 31/50, 61/100, 3/5] := by
  refine ⟨gridRawLevels_length U L N, fun x => mem_gridRawLevels,
    calculate_grid_levels_of_valid hU hN, ?_, by
      norm_num [NormalGrid.calculate_grid_levels, NormalGrid.gridRawLevels, sortDescDedup,
        insertDesc, qD, truncQ, tick, List.range_succ]⟩
  rw [calculate_grid_levels_of_valid hU hN]
  exact sortDescDedup_pairwise _

/-- C2 witness: the theorem applied at U = 0.7, L = 0.6, N = 10. -/
theorem C2_arith_levels_witness :
    NormalGrid.calculate_grid_levels (7/10) (3/5) 10 =
      [7/10, 69/100, 17/25, 67/100, 33/50, 13/20, 16/25, 63/100, 31/50, 61/100, 3/5] :=
  (C2_arith_levels (7/10) (3/5) 10 (by norm_num) (by norm_num) (by norm_num)).2.2.2.2

/-- C3: for U > L > 0, N ≥ 1 the geometric calculator builds the N+1
pre-quantization levels L·ratio^i (i = 0..N), each by multiplying the
previous level by the ratio, then quantizes them round-down to the tick,
deduplicates consecutive descending values within half a tick keeping the
higher, and returns the list sorted strictly descending.  The `decimal`
power that computes ratio = (U/L)^(1/N) is a library primitive, modelled
as the explicit argument `ratio` with the guard `1 < ratio` taken from the code. -/
theorem C3_log_levels (U L ratio : ℚ) (N : ℕ) (hL : 0 < L) (hU : L < U)
    (hN : 1 ≤ N) (hr : 1 < ratio) :
    (LogGrid.logIter L ratio N).length = N + 1 ∧
    (∀ i ≤ N, (LogGrid.logIter L ratio N).getD i 0 = L * ratio ^ i) ∧
    LogGrid.calculate_grid_levels ratio U L N =
      sortDescDedup (LogGrid.logDedup (tick / 2) (qD L)
        (sortDescDedup ((LogGrid.logIter L ratio N).map qD))) ∧
    (∀ x ∈ LogGrid.calculate_grid_levels ratio U L N,
      ∃ i ≤ N, x = qD (L * ratio ^ i)) ∧
    (LogGrid.calculate_grid_levels ratio U L N).Pairwise (· > ·) := by
  have heq : LogGrid.calculate_grid_levels ratio U L N =
      sortDescDedup (LogGrid.logDedup (tick / 2) (qD L)
        (sortDescDedup ((LogGrid.logIter L ratio N).map qD))) :=
    log_calculate_grid_levels_of_valid hL hU hN hr
  refine ⟨logIter_length L ratio N, logIter_getD L ratio N, heq, ?_, ?_⟩
  · intro x hx
    rw [heq, mem_sortDescDedup] at hx
    have hx2 := mem_logDedup hx
    rw [mem_sortDescDedup] at hx2
    obtain ⟨y, hy, rfl⟩ := List.mem_map.mp hx2
    obtain ⟨i, hi, rfl⟩ := mem_logIter.mp hy
    exact ⟨i, hi, rfl⟩
  · rw [heq]
    exact sortDescDedup_pairwise _

/-- C3 witness: the theorem applied at U = 8, L = 1, N = 3, ratio = 2. -/
theorem C3_log_levels_witness :
    (LogGrid.logIter (1 : ℚ) 2 3).length = 3 + 1 ∧
    (LogGrid.logIter (1 : ℚ) 2 3).getD 3 0 = 1 * 2 ^ 3 :=
  ⟨(C3_log_levels 8 1 2 3 (by norm_num) (by norm_num) (by norm_num) (by norm_num)).1,
   (C3_log_levels 8 1 2 3 (by norm_num) (by norm_num) (by norm_num) (by norm_num)).2.1
      3 (le_refl 3)⟩

/-- C5 (amended): startup aborts exactly when the calculator returns an
empty level list; U ≤ L or N < 1 (and, in the geometric calculator,
L ≤ 0) give an empty list and abort, but for any U > L and N ≥ 1 the
arithmetic startup proceeds — surviving with fewer than 2 unique levels
only logs a warning (the `return []` is commented out in the code) and
the arithmetic calculator performs no L ≤ 0 check. -/
theorem C5_startup_validation_amended (U L : ℚ) (N : ℕ) :
    ((U ≤ L ∨ N < 1) → NormalGrid.startupLevels U L N = none) ∧
    (NormalGrid.startupLevels U L N = none ↔
      NormalGrid.calculate_grid_levels U L N = []) ∧
    (∀ ratio, L ≤ 0 → LogGrid.startupLevels ratio U L N = none) ∧
    (L < U → 1 ≤ N → NormalGrid.startupLevels U L N ≠ none) := by
  have hb : NormalGrid.startupLevels U L N = none ↔
      NormalGrid.calculate_grid_levels U L N = [] := by
    cases h : NormalGrid.calculate_grid_levels U L N with
    | nil => simp [NormalGrid.startupLevels, h]
    | cons a l => simp [NormalGrid.startupLevels, h]
  refine ⟨?_, hb, ?_, ?_⟩
  · intro h
    rw [hb]
    unfold NormalGrid.calculate_grid_levels
    rw [if_pos h]
  · intro ratio hL0
    have hc : LogGrid.calculate_grid_levels ratio U L N = [] := by
      unfold LogGrid.calculate_grid_levels
      by_cases h1 : U ≤ L ∨ N < 1
      · rw [if_pos h1]
      · rw [if_neg h1, if_pos hL0]
    simp [LogGrid.startupLevels, hc]
  · intro hU hN
    rw [Ne, hb, calculate_grid_levels_of_valid hU hN]
    have hlen : ((NormalGrid.gridRawLevels U L N).map qD).length = N + 1 := by
      rw [List.length_map, gridRawLevels_length]
    cases hml : (NormalGrid.gridRawLevels U L N).map qD with
    | nil =>
      rw [hml] at hlen
      simp at hlen
    | cons a l =>
      exact sortDescDedup_ne_nil a l

/-- C5 counterexample: with U = 0.60005, L = 0.6, N = 1 only one unique
level survives quantization, yet the strategy does not abort — the level
list [0.6] is returned nonempty and the maintenance loop is entered with
a single level, contradicting the claim that fewer than 2 surviving
levels is fatal. -/
theorem C5_single_level_counterexample :
    NormalGrid.startupLevels (12001/20000) (3/5) 1 = some [3/5] ∧
    ([(3/5 : ℚ)]).length < 2 := by
  constructor
  · norm_num [NormalGrid.startupLevels, NormalGrid.calculate_grid_levels,
      NormalGrid.gridRawLevels, sortDescDedup, insertDesc, qD, truncQ, tick,
      List.range_succ]
  · norm_num

/-- C5 witness: the amended theorem applied at concrete configurations,
one per discharged hypothesis. -/
theorem C5_startup_validation_amended_witness :
    NormalGrid.startupLevels (1/2) (3/5) 3 = none ∧
    LogGrid.startupLevels 2 (7/10) (-1) 5 = none ∧
    NormalGrid.startupLevels (7/10) (3/5) 10 ≠ none :=
  ⟨(C5_startup_validation_amended (1/2) (3/5) 3).1 (Or.inl (by norm_num)),
   (C5_startup_validation_amended (7/10) (-1) 5).2.2.1 2 (by norm_num),
   (C5_startup_validation_amended (7/10) (3/5) 10).2.2.2 (by norm_num) (by norm_num)⟩

/-- C10: for U > L > 0, N ≥ 1 every level returned by either calculator
lies between the round-down quantizations of L and of U, and both
returned lists are strictly descending.  For the geometric calculator the
abstract ratio carries the guard 1 < ratio from the code and the idealized
bound L·ratio^N ≤ U satisfied by the exact root (U/L)^(1/N). -/
theorem C10_level_bounds (U L ratio : ℚ) (N : ℕ) (hL : 0 < L) (hU : L < U)
    (hN : 1 ≤ N) (hr : 1 < ratio) (hrU : L * ratio ^ N ≤ U) :
    (∀ x ∈ NormalGrid.calculate_grid_levels U L N, qD L ≤ x ∧ x ≤ qD U) ∧
    (NormalGrid.calculate_grid_levels U L N).Pairwise (· > ·) ∧
    (∀ x ∈ LogGrid.calculate_grid_levels ratio U L N, qD L ≤ x ∧ x ≤ qD U) ∧
    (LogGrid.calculate_grid_levels ratio U L N).Pairwise (· > ·) := by
  have hNQ : (0 : ℚ) < (N : ℚ) := by exact_mod_cast hN
  refine ⟨?_, ?_, ?_, ?_⟩
  · intro x hx
    rw [calculate_grid_levels_of_valid hU hN, mem_sortDescDedup] at hx
    obtain ⟨y, hy, rfl⟩ := List.mem_map.mp hx
    obtain ⟨i, hi, rfl⟩ := mem_gridRawLevels.mp hy
    have hstep : (0 : ℚ) < (U - L) / (N : ℚ) := div_pos (by linarith) hNQ
    have hiN : ((i : ℚ)) ≤ (N : ℚ) := by exact_mod_cast hi
    constructor
    · apply qD_mono
      have hcast : (0 : ℚ) ≤ (i : ℚ) := Nat.cast_nonneg i
      nlinarith [mul_nonneg hcast hstep.le]
    · apply qD_mono
      have h1 : (i : ℚ) * ((U - L) / (N : ℚ)) ≤ (N : ℚ) * ((U - L) / (N : ℚ)) :=
        mul_le_mul_of_nonneg_right hiN hstep.le
      have h2 : (N : ℚ) * ((U - L) / (N : ℚ)) = U - L := by
        field_simp
      linarith
  · rw [calculate_grid_levels_of_valid hU hN]
    exact sortDescDedup_pairwise _
  · intro x hx
    rw [log_calculate_grid_levels_of_valid hL hU hN hr, mem_sortDescDedup] at hx
    have hx2 := mem_logDedup hx
    rw [mem_sortDescDedup] at hx2
    obtain ⟨y, hy, rfl⟩ := List.mem_map.mp hx2
    obtain ⟨i, hi, rfl⟩ := mem_logIter.mp hy
    have hp1 : (1 : ℚ) ≤ ratio ^ i := by
      have := pow_le_pow_right₀ hr.le (Nat.zero_le i)
      simpa using this
    constructor
    · apply qD_mono
      nlinarith
    · apply qD_mono
      have hpow : ratio ^ i ≤ ratio ^ N := pow_le_pow_right₀ hr.le hi
      nlinarith
  · rw [log_calculate_grid_levels_of_valid hL hU hN hr]
    exact sortDescDedup_pairwise _

/-- C10 witness: the theorem applied at U = 4, L = 1, N = 2, ratio = 2,
instantiated at the returned level 4. -/
theorem C10_level_bounds_witness : qD (1 : ℚ) ≤ 4 ∧ (4 : ℚ) ≤ qD 4 :=
  (C10_level_bounds 4 1 2 2 (by norm_num) (by norm_num) (by norm_num)
    (by norm_num) (by norm_num)).1 4
    (by norm_num [NormalGrid.calculate_grid_levels, NormalGrid.gridRawLevels,
      sortDescDedup, insertDesc, qD, truncQ, tick, List.range_succ])

/-!
Grid reconciliation loop.  Both strategy files run the identical loop
body: fetch the current price (skip the tick, sleeping the fixed
interval, when it fails), fetch open orders and reduce them to sets of
quantized BUY/SELL prices, then for every level in plan order place the
missing order on the side implied by the position of the level relative to the
raw current price.  The exchange is the environment: the fetched price,
the parsed open-order price sets and the per-level quantity are
parameters of the embedded tick.
-/

/-- Order side as sent to the exchange. -/
inductive Side where
  | BUY : Side
  | SELL : Side
deriving DecidableEq, Repr

/-- A limit order as submitted by `place_limit_order`: side, price and
quantity after their precision formatting. -/
structure Order where
  side : Side
  price : ℚ
  qty : ℚ
deriving DecidableEq, Repr

/-- Embedding of `place_limit_order(symbol, side, quantity, price)`:
price is quantized round-down to the tick, quantity round-down to the
quantity step, before submission. -/
def place_limit_order (side : Side) (quantity price : ℚ) : Order :=
  ⟨side, qD price, qDqty quantity⟩

/-- One level of the maintenance loop body: `level_quantized =
level_price.quantize(PRICE_PRECISION)`; a BUY is placed when the level is
strictly below the current price and no open BUY sits at it, a SELL when
strictly above and no open SELL sits at it, nothing otherwise. -/
def processLevel (quantity price : ℚ) (openBuys openSells : Finset ℚ) (lvl : ℚ) :
    Option Order :=
  if qHE lvl < price then
    if qHE lvl ∉ openBuys then some (place_limit_order Side.BUY quantity (qHE lvl))
    else none
  else if price < qHE lvl then
    if qHE lvl ∉ openSells then some (place_limit_order Side.SELL quantity (qHE lvl))
    else none
  else none

/-- The orders placed by one reconciliation tick, in plan order. -/
def tickPlacements (levels : List ℚ) (quantity price : ℚ)
    (openBuys openSells : Finset ℚ) : List Order :=
  levels.filterMap (processLevel quantity price openBuys openSells)

/-- The quantized prices of the placed orders of one side, as the next
open-orders parsing of the next tick (`Decimal(order["price"]).quantize(PRICE_PRECISION)`)
would report them. -/
def placedPrices (s : Side) (pl : List Order) : Finset ℚ :=
  ((pl.filter (fun o => o.side == s)).map (fun o => qHE o.price)).toFinset

/-- Trace of one iteration of the maintenance loop: whether the
open-orders endpoint was queried, the orders placed, and the sleep that
ends the iteration. -/
structure TickTrace where
  openOrdersFetched : Bool
  placed : List Order
  sleptSeconds : ℕ
deriving DecidableEq, Repr

/-- Embedding of one iteration of the `while True` maintenance loop:
when the price fetch failed (`current_price is None`) the iteration only
sleeps the check interval; otherwise it reads open orders and walks the
plan. -/
def runTick (levels : List ℚ) (quantity : ℚ) (interval : ℕ)
    (priceResult : Option ℚ) (openBuys openSells : Finset ℚ) : TickTrace :=
  match priceResult with
  | none => ⟨false, [], interval⟩
  | some p => ⟨true, tickPlacements levels quantity p openBuys openSells, interval⟩

theorem processLevel_eq_some {quantity price : ℚ} {bs ss : Finset ℚ}
    {lvl : ℚ} {o : Order} :
    processLevel quantity price bs ss lvl = some o ↔
      (qHE lvl < price ∧ qHE lvl ∉ bs ∧ o = ⟨Side.BUY, qHE lvl, qDqty quantity⟩) ∨
      (price < qHE lvl ∧ qHE lvl ∉ ss ∧ o = ⟨Side.SELL, qHE lvl, qDqty quantity⟩) := by
  unfold processLevel place_limit_order
  by_cases h1 : qHE lvl < price
  · rw [if_pos h1]
    have hns : ¬price < qHE lvl := lt_asymm h1
    by_cases h2 : qHE lvl ∈ bs
    · rw [if_neg (not_not_intro h2)]
      simp [h1, h2, hns]
    · rw [if_pos h2]
      simp [h1, h2, hns, qD_qHE, eq_comm]
  · rw [if_neg h1]
    by_cases h3 : price < qHE lvl
    · rw [if_pos h3]
      by_cases h4 : qHE lvl ∈ ss
      · rw [if_neg (not_not_intro h4)]
        simp [h1, h3, h4]
      · rw [if_pos h4]
        simp [h1, h3, h4, qD_qHE, eq_comm]
    · rw [if_neg h3]
      simp [h1, h3]

theorem mem_tickPlacements {levels : List ℚ} {quantity price : ℚ}
    {bs ss : Finset ℚ} {o : Order} :
    o ∈ tickPlacements levels quantity price bs ss ↔
      ∃ l ∈ levels,
        (qHE l < price ∧ qHE l ∉ bs ∧ o = ⟨Side.BUY, qHE l, qDqty quantity⟩) ∨
        (price < qHE l ∧ qHE l ∉ ss ∧ o = ⟨Side.SELL, qHE l, qDqty quantity⟩) := by
  unfold tickPlacements
  rw [List.mem_filterMap]
  constructor
  · rintro ⟨l, hl, hsome⟩
    exact ⟨l, hl, processLevel_eq_some.mp hsome⟩
  · rintro ⟨l, hl, hcase⟩
    exact ⟨l, hl, processLevel_eq_some.mpr hcase⟩

theorem filterMap_eq_nil_of_forall {α β : Type} {f : α → Option β} {l : List α}
    (h : ∀ a ∈ l, f a = none) : l.filterMap f = [] := by
  induction l with
  | nil => rfl
  | cons a as ih =>
    rw [List.filterMap_cons, h a (List.mem_cons_self a as)]
    exact ih fun b hb => h b (List.mem_cons_of_mem a hb)

/-- C1 (amended): on a reconciliation tick, a BUY is placed exactly at
the quantized levels strictly below the raw current price with no open
BUY there, a SELL exactly at those strictly above it with no open SELL
there, every placed order carries the plan quantity, and no placed order
sits at the raw current price.  The boundary of the original claim spoke of
the quantized current price; the loop compares against the price as
fetched, so equality with the quantized current price does not prevent a
placement when the fetched price is not tick-aligned. -/
theorem C1_reconciliation_amended (levels : List ℚ) (quantity price : ℚ)
    (openBuys openSells : Finset ℚ) (q : ℚ) :
    ((∃ o ∈ tickPlacements levels quantity price openBuys openSells,
        o.side = Side.BUY ∧ o.price = q) ↔
      (∃ l ∈ levels, qHE l = q) ∧ q < price ∧ q ∉ openBuys) ∧
    ((∃ o ∈ tickPlacements levels quantity price openBuys openSells,
        o.side = Side.SELL ∧ o.price = q) ↔
      (∃ l ∈ levels, qHE l = q) ∧ price < q ∧ q ∉ openSells) ∧
    (∀ o ∈ tickPlacements levels quantity price openBuys openSells,
      o.price ≠ price ∧ o.qty = qDqty quantity) := by
  refine ⟨?_, ?_, ?_⟩
  · constructor
    · rintro ⟨o, ho, hside, hprice⟩
      obtain ⟨l, hl, hcase⟩ := mem_tickPlacements.mp ho
      rcases hcase with ⟨h1, h2, rfl⟩ | ⟨h1, h2, rfl⟩
      · simp only at hprice
        subst hprice
        exact ⟨⟨l, hl, rfl⟩, h1, h2⟩
      · simp at hside
    · rintro ⟨⟨l, hl, hq⟩, hlt, hnb⟩
      refine ⟨⟨Side.BUY, q, qDqty quantity⟩, ?_, rfl, rfl⟩
      apply mem_tickPlacements.mpr
      refine ⟨l, hl, Or.inl ?_⟩
      rw [hq]
      exact ⟨hlt, hnb, rfl⟩
  · constructor
    · rintro ⟨o, ho, hside, hprice⟩
      obtain ⟨l, hl, hcase⟩ := mem_tickPlacements.mp ho
      rcases hcase with ⟨h1, h2, rfl⟩ | ⟨h1, h2, rfl⟩
      · simp at hside
      · simp only at hprice
        subst hprice
        exact ⟨⟨l, hl, rfl⟩, h1, h2⟩
    · rintro ⟨⟨l, hl, hq⟩, hlt, hns⟩
      refine ⟨⟨Side.SELL, q, qDqty quantity⟩, ?_, rfl, rfl⟩
      apply mem_tickPlacements.mpr
      refine ⟨l, hl, Or.inr ?_⟩
      rw [hq]
      exact ⟨hlt, hns, rfl⟩
  · intro o ho
    obtain ⟨l, hl, hcase⟩ := mem_tickPlacements.mp ho
    rcases hcase with ⟨h1, h2, rfl⟩ | ⟨h1, h2, rfl⟩
    · exact ⟨ne_of_lt h1, rfl⟩
    · exact ⟨ne_of_gt h1, rfl⟩

/-- C1 counterexample: with the fetched price 0.65003 (not tick-aligned)
and the single level 0.65, the quantized level price equals the
round-down-quantized current price, yet the tick places a BUY there —
refuting the claim that such a level triggers neither placement. -/
theorem C1_boundary_counterexample :
    qHE (13/20) = qD (65003/100000) ∧
    tickPlacements [13/20] 10 (65003/100000) ∅ ∅ =
      [⟨Side.BUY, 13/20, 10⟩] := by
  constructor
  · norm_num [qHE, qD, roundHE, truncQ, tick]
  · norm_num [tickPlacements, List.filterMap_cons, processLevel, place_limit_order,
      qHE, qD, qDqty, roundHE, truncQ, tick]

/-- C8: reconciliation is idempotent — a second tick at the same price,
whose open-orders snapshot is the previous one plus the placements of the
first tick, places no order. -/
theorem C8_idempotent (levels : List ℚ) (quantity price : ℚ)
    (openBuys openSells : Finset ℚ) :
    tickPlacements levels quantity price
      (openBuys ∪ placedPrices Side.BUY
        (tickPlacements levels quantity price openBuys openSells))
      (openSells ∪ placedPrices Side.SELL
        (tickPlacements levels quantity price openBuys openSells)) = [] := by
  apply filterMap_eq_nil_of_forall
  intro lvl hlvl
  unfold processLevel
  by_cases h1 : qHE lvl < price
  · rw [if_pos h1]
    have hmem : qHE lvl ∈ openBuys ∪ placedPrices Side.BUY
        (tickPlacements levels quantity price openBuys openSells) := by
      by_cases hb : qHE lvl ∈ openBuys
      · exact Finset.mem_union_left _ hb
      · apply Finset.mem_union_right
        unfold placedPrices
        rw [List.mem_toFinset, List.mem_map]
        refine ⟨⟨Side.BUY, qHE lvl, qDqty quantity⟩, ?_, qHE_qHE lvl⟩
        rw [List.mem_filter]
        refine ⟨mem_tickPlacements.mpr ⟨lvl, hlvl, Or.inl ⟨h1, hb, rfl⟩⟩, ?_⟩
        simp
    rw [if_neg (not_not_intro hmem)]
  · rw [if_neg h1]
    by_cases h3 : price < qHE lvl
    · rw [if_pos h3]
      have hmem : qHE lvl ∈ openSells ∪ placedPrices Side.SELL
          (tickPlacements levels quantity price openBuys openSells) := by
        by_cases hs : qHE lvl ∈ openSells
        · exact Finset.mem_union_left _ hs
        · apply Finset.mem_union_right
          unfold placedPrices
          rw [List.mem_toFinset, List.mem_map]
          refine ⟨⟨Side.SELL, qHE lvl, qDqty quantity⟩, ?_, qHE_qHE lvl⟩
          rw [List.mem_filter]
          refine ⟨mem_tickPlacements.mpr ⟨lvl, hlvl, Or.inr ⟨h3, hs, rfl⟩⟩, ?_⟩
          simp
      rw [if_neg (not_not_intro hmem)]
    · rw [if_neg h3]

/-- C9: a tick whose price fetch fails queries no open orders, places no
order and sleeps the same fixed check interval as any other tick (no
backoff), leaving the retry to the next tick. -/
theorem C9_price_failure_tick (levels : List ℚ) (quantity : ℚ) (interval : ℕ)
    (openBuys openSells : Finset ℚ) (p : ℚ) :
    runTick levels quantity interval none openBuys openSells =
      ⟨false, [], interval⟩ ∧
    (runTick levels quantity interval (some p) openBuys openSells).openOrdersFetched
      = true ∧
    (runTick levels quantity interval (some p) openBuys openSells).sleptSeconds
      = interval :=
  ⟨rfl, rfl, rfl⟩

/-- C4: the sizing block returns the round-down quantization of
(B/N)/average price when it passes, that returned quantity is strictly
positive with notional at the lower bound at least the exchange minimum,
and it fails startup (without any order) whenever the computed quantity
is nonpositive or its notional at the lower bound is below the minimum. -/
theorem C4_sizing (B U L : ℚ) (N : ℕ) :
    (∀ q, sizeOrders B U L N = some q →
      q = computeOrderQty B U L N ∧ 0 < q ∧ MIN_NOTIONAL_VALUE ≤ q * L) ∧
    (computeOrderQty B U L N ≤ 0 → sizeOrders B U L N = none) ∧
    (computeOrderQty B U L N * L < MIN_NOTIONAL_VALUE →
      sizeOrders B U L N = none) := by
  unfold sizeOrders
  split_ifs with h1 h2 h3
  · exact ⟨fun q hq => by simp at hq, fun _ => rfl, fun _ => rfl⟩
  · exact ⟨fun q hq => by simp at hq, fun _ => rfl, fun _ => rfl⟩
  · exact ⟨fun q hq => by simp at hq, fun _ => rfl, fun _ => rfl⟩
  · refine ⟨fun q hq => ?_, fun hq0 => absurd hq0 h2, fun hqn => absurd hqn h3⟩
    obtain rfl := Option.some_inj.mp hq
    exact ⟨rfl, not_le.mp h2, not_lt.mp h3⟩

/-- C4 witness: the theorem applied at a budget that rounds to quantity 0
(B = 0.001) and at one whose notional is below the minimum (B = 30), both
with U = 0.7, L = 0.6, N = 10. -/
theorem C4_sizing_witness :
    sizeOrders (1/1000) (7/10) (3/5) 10 = none ∧
    sizeOrders 30 (7/10) (3/5) 10 = none :=
  ⟨(C4_sizing (1/1000) (7/10) (3/5) 10).2.1
      (by norm_num [computeOrderQty, qDqty, truncQ]),
   (C4_sizing 30 (7/10) (3/5) 10).2.2
      (by norm_num [computeOrderQty, qDqty, truncQ, MIN_NOTIONAL_VALUE])⟩

/-!
Signed REST client (`make_signed_request` of both strategy files, the two
are identical) and the open-orders gateway (`get_open_orders`).  The
network is the environment: a `Network` provides the `/fapi/v1/time`
response and the response to a sent request (`none` standing for a
transport error, a non-2xx status raised by `raise_for_status`, or an
unparsable body — all of which the Python `except` turns into `None`).
The HMAC-SHA256 primitive (`hmac.new(...).hexdigest()`) and the
URL-encoding of a single token (the quoting of `urllib.parse`) are library
primitives, modelled as explicit function arguments `hmacF` and `quote`.
-/

/-- HTTP method of a signed call; the code supports exactly GET, POST
and DELETE. -/
inductive Method where
  | GET : Method
  | POST : Method
  | DELETE : Method
deriving DecidableEq, Repr

/-- A request as the client sends it: everything (parameters and
signature) in the URL query string, the API key in a header, empty body. -/
structure HttpRequest where
  method : Method
  url : String
  headers : List (String × String)
  body : String
deriving DecidableEq, Repr

/-- An exchange order record as returned by the open-orders endpoint;
the gateway passes records through untouched. -/
structure OrderRecord where
  orderId : ℕ
  side : String
  price : String
deriving DecidableEq, Repr

/-- Shape of a parsed JSON response, as far as `get_open_orders`
distinguishes it: a list of order records, or anything that is not a
list (`isinstance(result, list)` fails). -/
inductive Json where
  | jarr : List OrderRecord → Json
  | jobj : Json
  | jother : Json
deriving DecidableEq, Repr

/-- The exchange-side environment of one signed call. -/
structure Network where
  serverTime : Option ℤ
  send : HttpRequest → Option Json

/-- Exchange REST base, `BASE_URL = "https://fapi.asterdex.com"`. -/
def BASE_URL : String := "https://fapi.asterdex.com"

/-- Code-point lexicographic comparison of character lists, the order
Python uses to compare strings. -/
def charListLe : List Char → List Char → Bool
  | [], _ => true
  | _ :: _, [] => false
  | a :: as, b :: bs =>
    if a.val < b.val then true
    else if b.val < a.val then false
    else charListLe as bs

/-- Code-point lexicographic comparison of strings. -/
def strLe (a b : String) : Bool := charListLe a.data b.data

/-- Insertion of a key-value pair into a list sorted by key, mirroring
Python `sorted(params_for_signing.items())` (keys are distinct, so the
comparison never reaches the values). -/
def insertByKey (p : String × String) : List (String × String) → List (String × String)
  | [] => [p]
  | q :: qs => if strLe p.1 q.1 then p :: q :: qs else q :: insertByKey p qs

/-- Lexicographic key-sort of the parameters to be signed. -/
def sortByKey (l : List (String × String)) : List (String × String) :=
  l.foldr insertByKey []

/-- Embedding of `urllib.parse.urlencode`: quote each key and value,
join pairs with `=` and `&`. -/
def encodeParams (quote : String → String) : List (String × String) → String
  | [] => ""
  | [p] => quote p.1 ++ "=" ++ quote p.2
  | p :: ps => quote p.1 ++ "=" ++ quote p.2 ++ "&" ++ encodeParams quote ps

/-- The request `make_signed_request` constructs once the server time is
known: business parameters plus `timestamp` and `recvWindow=5000`,
URL-encoded sorted by key, HMAC-signed with the secret, signature
appended to the query string, API key in the `X-MBX-APIKEY` header,
empty body.  `none` when a credential is missing. -/
def buildSignedRequest (hmacF : String → String → String) (quote : String → String)
    (t : ℤ) (apiKey secret : String) (method : Method) (endpoint : String)
    (params : List (String × String)) : Option HttpRequest :=
  if secret = "" then none
  else if apiKey = "" then none
  else
    some ⟨method,
      BASE_URL ++ endpoint ++ "?" ++
        encodeParams quote (sortByKey
          (params ++ [("timestamp", toString t), ("recvWindow", "5000")])) ++
        "&signature=" ++
        hmacF secret (encodeParams quote (sortByKey
          (params ++ [("timestamp", toString t), ("recvWindow", "5000")]))),
      [("X-MBX-APIKEY", apiKey)], ""⟩

/-- Embedding of `make_signed_request(method, endpoint, params)`:
fetch the server time (fail the call when that fails), build the signed
request, send it, return the parsed body or `None`. -/
def make_signed_request (hmacF : String → String → String) (quote : String → String)
    (net : Network) (apiKey secret : String) (method : Method) (endpoint : String)
    (params : List (String × String)) : Option Json :=
  match net.serverTime with
  | none => none
  | some t =>
    match buildSignedRequest hmacF quote t apiKey secret method endpoint params with
    | none => none
    | some req => net.send req

/-- Embedding of `get_open_orders(symbol)`:
`return result if isinstance(result, list) else []`. -/
def get_open_orders (hmacF : String → String → String) (quote : String → String)
    (net : Network) (apiKey secret symbol : String) : List OrderRecord :=
  match make_signed_request hmacF quote net apiKey secret Method.GET
      "/fapi/v1/openOrders" [("symbol", symbol)] with
  | some (Json.jarr l) => l
  | _ => []

/-- C7: a signed call first needs the exchange server time and returns
failure without sending anything when that fetch fails; otherwise the
constructed request, for GET, POST and DELETE alike, carries every
parameter plus timestamp and recvWindow=5000 key-sorted and URL-encoded
in the query string with the HMAC-SHA256 signature (keyed by the secret
over exactly that string) appended, the API key only in a header, and an
empty body; the response of sending that request is the result of the call. -/
theorem C7_signed_request (hmacF : String → String → String)
    (quote : String → String) (send : HttpRequest → Option Json)
    (apiKey secret : String) (t : ℤ) (method : Method) (endpoint : String)
    (params : List (String × String)) (hA : apiKey ≠ "") (hS : secret ≠ "") :
    make_signed_request hmacF quote ⟨none, send⟩ apiKey secret method endpoint
      params = none ∧
    buildSignedRequest hmacF quote t apiKey secret method endpoint params =
      some ⟨method,
        BASE_URL ++ endpoint ++ "?" ++
          encodeParams quote (sortByKey
            (params ++ [("timestamp", toString t), ("recvWindow", "5000")])) ++
          "&signature=" ++
          hmacF secret (encodeParams quote (sortByKey
            (params ++ [("timestamp", toString t), ("recvWindow", "5000")]))),
        [("X-MBX-APIKEY", apiKey)], ""⟩ ∧
    (∀ req, buildSignedRequest hmacF quote t apiKey secret method endpoint
        params = some req →
      make_signed_request hmacF quote ⟨some t, send⟩ apiKey secret method
        endpoint params = send req) := by
  refine ⟨rfl, ?_, ?_⟩
  · unfold buildSignedRequest
    rw [if_neg hS, if_neg hA]
  · intro req hreq
    unfold make_signed_request
    simp [hreq]

/-- C7 witness: the theorem applied to concrete credentials, parameters
and primitive stand-ins, with the resulting query string spelled out. -/
theorem C7_signed_request_witness :
    buildSignedRequest (fun s m => s ++ "|" ++ m) (fun s => s) 1700 "AK" "SK"
        Method.POST "/fapi/v1/order" [("symbol", "BTCUSDT")] =
      some ⟨Method.POST,
        "https://fapi.asterdex.com/fapi/v1/order?recvWindow=5000&symbol=BTCUSDT&timestamp=1700&signature=SK|recvWindow=5000&symbol=BTCUSDT&timestamp=1700",
        [("X-MBX-APIKEY", "AK")], ""⟩ := by
  have h := (C7_signed_request (fun s m => s ++ "|" ++ m) (fun s => s)
    (fun _ => none) "AK" "SK" 1700 Method.POST "/fapi/v1/order"
    [("symbol", "BTCUSDT")] (by decide) (by decide)).2.1
  rw [h]
  rfl

/-- C6: the open-orders gateway always returns a list — the order list of the
exchange when the signed call succeeds with a list body, and the empty
list when the server-time fetch fails, the send fails (transport error or
non-2xx or unparsable body), or the body is not a list. -/
theorem C6_open_orders (hmacF : String → String → String)
    (quote : String → String) (net : Network) (apiKey secret symbol : String) :
    (net.serverTime = none →
      get_open_orders hmacF quote net apiKey secret symbol = []) ∧
    (∀ t, net.serverTime = some t →
      ∀ req, buildSignedRequest hmacF quote t apiKey secret Method.GET
          "/fapi/v1/openOrders" [("symbol", symbol)] = some req →
        (net.send req = none →
          get_open_orders hmacF quote net apiKey secret symbol = []) ∧
        (∀ l, net.send req = some (Json.jarr l) →
          get_open_orders hmacF quote net apiKey secret symbol = l) ∧
        (net.send req = some Json.jobj →
          get_open_orders hmacF quote net apiKey secret symbol = []) ∧
        (net.send req = some Json.jother →
          get_open_orders hmacF quote net apiKey secret symbol = [])) := by
  constructor
  · intro h
    simp [get_open_orders, make_signed_request, h]
  · intro t ht req hreq
    refine ⟨?_, ?_, ?_, ?_⟩
    · intro hsend
      simp [get_open_orders, make_signed_request, ht, hreq, hsend]
    · intro l hsend
      simp [get_open_orders, make_signed_request, ht, hreq, hsend]
    · intro hsend
      simp [get_open_orders, make_signed_request, ht, hreq, hsend]
    · intro hsend
      simp [get_open_orders, make_signed_request, ht, hreq, hsend]

/-- C6 witness: the theorem applied to a network that answers the signed
open-orders call with a one-record list, and to one that fails the send. -/
theorem C6_open_orders_witness :
    get_open_orders (fun s m => s ++ "|" ++ m) (fun s => s)
      ⟨some 1700, fun _ => some (Json.jarr [⟨7, "BUY", "0.6500"⟩])⟩
      "AK" "SK" "BTCUSDT" = [⟨7, "BUY", "0.6500"⟩] ∧
    get_open_orders (fun s m => s ++ "|" ++ m) (fun s => s)
      ⟨some 1700, fun _ => none⟩ "AK" "SK" "BTCUSDT" = [] := by
  constructor
  · have h := ((C6_open_orders (fun s m => s ++ "|" ++ m) (fun s => s)
      ⟨some 1700, fun _ => some (Json.jarr [⟨7, "BUY", "0.6500"⟩])⟩
      "AK" "SK" "BTCUSDT").2 1700 rfl _ rfl).2.1
    exact h [⟨7, "BUY", "0.6500"⟩] rfl
  · have h := ((C6_open_orders (fun s m => s ++ "|" ++ m) (fun s => s)
      ⟨some 1700, fun _ => none⟩ "AK" "SK" "BTCUSDT").2 1700 rfl _ rfl).1
    exact h rfl
